import Mathlib

/-!
# Verification of the IP-card JSONC tool (`parse_json.py`)

This file gives a shallow embedding, in Lean 4, of the core of the
`pulp-unibo/ip-card` repository: the JSONC comment stripper
`strip_jsonc_comments`, the structural flattener `flatten_fields`, the
LaTeX exporter `export_to_latex`, and the export phase of the CLI driver
`main`.  Text is modelled as `List Char`; a parsed JSON document is the
inductive type `Json` below, with Python `dict`s represented as
insertion-ordered association lists (Python 3.7+ dicts preserve insertion
order) and JSON numbers restricted to integers (the inputs appearing in
the concrete scenarios below are all integers).

Theorems about each specified property follow the definitions.
-/

/-- A parsed JSON document, as produced by `json.loads`: objects are
insertion-ordered association lists, numbers are modelled as integers. -/
inductive Json where
| null : Json
| bool (b : Bool) : Json
| num (n : Int) : Json
| str (s : String) : Json
| arr (elems : List Json) : Json
| obj (fields : List (String × Json)) : Json

/-- The bracketed index marker `f"[{idx}]"` used by `flatten_fields` for
sequence elements. -/
def idxMark (idx : Nat) : String := "[" ++ toString idx ++ "]"

mutual
/-- `flatten_fields` from `parse_json.py`: return `([path segments], value)`
entries for each leaf node.  A `dict` recurses into each value in key order
appending the key; a `list` recurses into each element in index order
appending the bracketed index marker; any other value (including `null`)
emits one entry.  The Python loop over `data.items()` (resp. `enumerate`)
with `entries.extend` is rendered as the sibling functions below. -/
def flatten_fields : Json → List String → List (List String × Json)
| Json.obj kvs, path => flattenObj kvs path
| Json.arr xs, path => flattenArr xs 0 path
| v, path => [(path, v)]

/-- The `for key, value in data.items()` loop of `flatten_fields`. -/
def flattenObj : List (String × Json) → List String → List (List String × Json)
| [], _ => []
| (k, v) :: rest, path => flatten_fields v (path ++ [k]) ++ flattenObj rest path

/-- The `for idx, value in enumerate(data)` loop of `flatten_fields`. -/
def flattenArr : List Json → Nat → List String → List (List String × Json)
| [], _, _ => []
| v :: rest, idx, path => flatten_fields v (path ++ [idxMark idx]) ++ flattenArr rest (idx + 1) path
end

mutual
/-- The number of non-container leaves (null, booleans, numbers, strings)
of a document; containers contribute the leaves of their children. -/
def leafCount : Json → Nat
| Json.obj kvs => leafCountObj kvs
| Json.arr xs => leafCountArr xs
| _ => 1

/-- Leaf count of an object's fields. -/
def leafCountObj : List (String × Json) → Nat
| [] => 0
| (_, v) :: rest => leafCount v + leafCountObj rest

/-- Leaf count of an array's elements. -/
def leafCountArr : List Json → Nat
| [] => 0
| v :: rest => leafCount v + leafCountArr rest
end

/-- A structural induction principle for `Json` that hands the inductive
hypothesis to every member of a container, derived by strong induction on
`sizeOf`. -/
theorem Json.ind_on (P : Json → Prop)
    (hnull : P Json.null)
    (hbool : ∀ b, P (Json.bool b))
    (hnum : ∀ n, P (Json.num n))
    (hstr : ∀ s, P (Json.str s))
    (harr : ∀ xs, (∀ x ∈ xs, P x) → P (Json.arr xs))
    (hobj : ∀ kvs, (∀ kv ∈ kvs, P kv.2) → P (Json.obj kvs)) :
    ∀ d, P d := by
  have key : ∀ n (d : Json), sizeOf d ≤ n → P d := by
    intro n
    induction n with
    | zero =>
        intro d hd
        cases d <;> simp_arith at hd
    | succ n ih =>
        intro d hd
        cases d with
        | null => exact hnull
        | bool b => exact hbool b
        | num m => exact hnum m
        | str s => exact hstr s
        | arr xs =>
            refine harr xs (fun x hx => ih x ?_)
            have h1 : sizeOf x < sizeOf xs := List.sizeOf_lt_of_mem hx
            have h2 : sizeOf (Json.arr xs) = 1 + sizeOf xs := by simp
            omega
        | obj kvs =>
            refine hobj kvs (fun kv hkv => ih kv.2 ?_)
            have h1 : sizeOf kv < sizeOf kvs := List.sizeOf_lt_of_mem hkv
            have h2 : sizeOf kv.2 < sizeOf kv := by
              obtain ⟨k, v⟩ := kv
              simp_arith
            have h3 : sizeOf (Json.obj kvs) = 1 + sizeOf kvs := by simp
            omega
  exact fun d => key (sizeOf d) d le_rfl

/-- The object loop of `flatten_fields` is the in-order concatenation of the
flattenings of the values, each under its key. -/
theorem flattenObj_eq (kvs : List (String × Json)) (path : List String) :
    flattenObj kvs path
      = (kvs.map fun kv => flatten_fields kv.2 (path ++ [kv.1])).flatten := by
  induction kvs with
  | nil => rfl
  | cons kv rest ih =>
      obtain ⟨k, v⟩ := kv
      simp [flattenObj, ih]

/-- The array loop of `flatten_fields` is the in-order concatenation of the
flattenings of the elements, each under its bracketed index marker. -/
theorem flattenArr_eq (xs : List Json) (i : Nat) (path : List String) :
    flattenArr xs i path
      = ((xs.enumFrom i).map fun ix => flatten_fields ix.2 (path ++ [idxMark ix.1])).flatten := by
  induction xs generalizing i with
  | nil => rfl
  | cons x rest ih =>
      simp [flattenArr, List.enumFrom_cons, ih]

/-- Flattening under a longer starting path only prepends the extra prefix to
every emitted path. -/
theorem flatten_fields_path_append (d : Json) :
    ∀ p q, flatten_fields d (p ++ q)
      = (flatten_fields d q).map fun e => (p ++ e.1, e.2) := by
  induction d using Json.ind_on with
  | hnull => intro p q; simp [flatten_fields]
  | hbool b => intro p q; simp [flatten_fields]
  | hnum n => intro p q; simp [flatten_fields]
  | hstr s => intro p q; simp [flatten_fields]
  | harr xs ih =>
      intro p q
      simp only [flatten_fields, flattenArr_eq, List.map_flatten, List.map_map]
      congr 1
      refine List.map_congr_left (fun ix hix => ?_)
      have hmem : ix.2 ∈ xs := List.snd_mem_of_mem_enumFrom hix
      calc flatten_fields ix.2 (p ++ q ++ [idxMark ix.1])
          = flatten_fields ix.2 (p ++ (q ++ [idxMark ix.1])) := by rw [List.append_assoc]
        _ = (flatten_fields ix.2 (q ++ [idxMark ix.1])).map fun e => (p ++ e.1, e.2) :=
            ih ix.2 hmem p (q ++ [idxMark ix.1])
  | hobj kvs ih =>
      intro p q
      simp only [flatten_fields, flattenObj_eq, List.map_flatten, List.map_map]
      congr 1
      refine List.map_congr_left (fun kv hkv => ?_)
      calc flatten_fields kv.2 (p ++ q ++ [kv.1])
          = flatten_fields kv.2 (p ++ (q ++ [kv.1])) := by rw [List.append_assoc]
        _ = (flatten_fields kv.2 (q ++ [kv.1])).map fun e => (p ++ e.1, e.2) :=
            ih kv hkv p (q ++ [kv.1])

/-- The number of entries emitted by `flatten_fields` is exactly the number of
non-container leaves, whatever the starting path. -/
theorem flatten_fields_length (d : Json) :
    ∀ p, (flatten_fields d p).length = leafCount d := by
  induction d using Json.ind_on with
  | hnull => intro p; rfl
  | hbool b => intro p; rfl
  | hnum n => intro p; rfl
  | hstr s => intro p; rfl
  | harr xs ih =>
      intro p
      show (flattenArr xs 0 p).length = leafCountArr xs
      generalize 0 = i
      induction xs generalizing i with
      | nil => rfl
      | cons x rest ihl =>
          simp only [flattenArr, leafCountArr, List.length_append]
          rw [ih x (by simp), ihl (fun y hy => ih y (by simp [hy]))]
  | hobj kvs ih =>
      intro p
      show (flattenObj kvs p).length = leafCountObj kvs
      induction kvs with
      | nil => rfl
      | cons kv rest ihl =>
          obtain ⟨k, v⟩ := kv
          simp only [flattenObj, leafCountObj, List.length_append]
          rw [ih (k, v) (by simp), ihl (fun y hy => ih y (by simp [hy]))]

/-- C2: `flatten_fields` is total and order-preserving: the number of entries
equals the number of non-container leaves, a starting path only prefixes every
emitted path, mapping values are visited in key-declaration order with the key
appended, and sequence elements in index order with the bracketed index marker
appended.  Repeated calls agree because `flatten_fields` is a pure function of
its arguments. -/
theorem flatten_fields_total_and_ordered (d : Json) (p : List String) :
    (flatten_fields d p).length = leafCount d
    ∧ flatten_fields d p = (flatten_fields d []).map (fun e => (p ++ e.1, e.2))
    ∧ (∀ kvs, flatten_fields (Json.obj kvs) p
        = (kvs.map fun kv => flatten_fields kv.2 (p ++ [kv.1])).flatten)
    ∧ (∀ xs, flatten_fields (Json.arr xs) p
        = ((xs.enum).map fun ix => flatten_fields ix.2 (p ++ [idxMark ix.1])).flatten) := by
  refine ⟨flatten_fields_length d p, ?_, ?_, ?_⟩
  · have h := flatten_fields_path_append d p []
    simpa using h
  · intro kvs
    exact flattenObj_eq kvs p
  · intro xs
    exact flattenArr_eq xs 0 p

/-- C6: the document `{"a": 1, "b": {"c": 2, "d": [3, 4]}}` flattens, from the
empty starting path, to exactly the four expected entries in order. -/
theorem flatten_fields_round_trip_example :
    flatten_fields (Json.obj [("a", Json.num 1),
        ("b", Json.obj [("c", Json.num 2), ("d", Json.arr [Json.num 3, Json.num 4])])]) []
      = [(["a"], Json.num 1), (["b", "c"], Json.num 2),
         (["b", "d", "[0]"], Json.num 3), (["b", "d", "[1]"], Json.num 4)] := rfl

/-- C10 counterexample: an empty object used as a sequence element contributes
no entry, yet still consumes an index, so deleting it shifts the bracketed
index markers of the following elements: `[{}, 5]` and `[5]` flatten to
different sequences. -/
theorem flatten_fields_empty_in_array_counterexample :
    flatten_fields (Json.arr [Json.obj [], Json.num 5]) [] = [(["[1]"], Json.num 5)]
    ∧ flatten_fields (Json.arr [Json.num 5]) [] = [(["[0]"], Json.num 5)]
    ∧ flatten_fields (Json.arr [Json.obj [], Json.num 5]) []
        ≠ flatten_fields (Json.arr [Json.num 5]) [] := by
  refine ⟨rfl, rfl, fun h => ?_⟩
  have h2 := congrArg (fun l => l.map Prod.fst) h
  exact absurd h2 (by decide)

/-- C10 (amended): empty containers themselves flatten to no entries, and a
mapping key bound to an empty object or empty array can be inserted or removed
without changing the flattened sequence; only for sequences does an empty
element shift the index markers of its successors. -/
theorem flatten_fields_empty_containers (p : List String) (k : String)
    (kvs1 kvs2 : List (String × Json)) :
    flatten_fields (Json.obj []) p = []
    ∧ flatten_fields (Json.arr []) p = []
    ∧ flatten_fields (Json.obj (kvs1 ++ (k, Json.obj []) :: kvs2)) p
        = flatten_fields (Json.obj (kvs1 ++ kvs2)) p
    ∧ flatten_fields (Json.obj (kvs1 ++ (k, Json.arr []) :: kvs2)) p
        = flatten_fields (Json.obj (kvs1 ++ kvs2)) p := by
  refine ⟨rfl, rfl, ?_, ?_⟩ <;>
    simp [flatten_fields, flattenObj_eq, List.map_append, List.flatten_append, flattenObj,
      flattenArr]

/-- `line.find("*/", i + 2)` of `strip_jsonc_comments`: scan for the first
`*/`; on success return the suffix just after it (the position the Python code
jumps to with `i = close_idx + 2`), otherwise `none`. -/
def skipBlock : List Char → Option (List Char)
| [] => none
| [_] => none
| c1 :: c2 :: rest => if c1 = '*' ∧ c2 = '/' then some rest else skipBlock (c2 :: rest)

theorem skipBlock_length : ∀ {l r : List Char}, skipBlock l = some r → r.length < l.length := by
  intro l
  induction l with
  | nil => intro r h; simp [skipBlock] at h
  | cons c1 l2 ih =>
      intro r h
      match l2, h with
      | [], h => simp [skipBlock] at h
      | c2 :: rest, h =>
          simp only [skipBlock] at h
          by_cases hc : c1 = '*' ∧ c2 = '/'
          · rw [if_pos hc] at h
            cases h
            simp only [List.length_cons]
            omega
          · rw [if_neg hc] at h
            have := ih h
            simp only [List.length_cons] at this ⊢
            omega

/-- The character loop of `strip_jsonc_comments`, made total by a fuel counter
that is always called with `fuel ≥` the length of the remaining line (each
iteration advances `i` by at least one, so the line length bounds the number of
iterations).  Arguments: fuel, `in_string`, `escape_next`, remaining line.
The branches mirror the Python conditions in order: a pending escape copies
the character; a backslash inside a string copies and sets the escape; a quote
copies and toggles `in_string`; inside a string everything is copied; outside,
`//` ends the line, `/*` either jumps past the matching `*/` or ends the line,
and any other character is copied. -/
def stripFuel : Nat → Bool → Bool → List Char → List Char
| 0, _, _, _ => []
| _, _, _, [] => []
| fuel + 1, s, true, c :: r => c :: stripFuel fuel s false r
| fuel + 1, s, false, c :: r =>
  if c = '\\' ∧ s = true then c :: stripFuel fuel s true r
  else if c = '\"' then c :: stripFuel fuel (!s) false r
  else if s = true then c :: stripFuel fuel s false r
  else if c = '/' ∧ r.head? = some '/' then []
  else if c = '/' ∧ r.head? = some '*' then
    match skipBlock r.tail with
    | some r2 => stripFuel fuel false false r2
    | none => []
  else c :: stripFuel fuel false false r
termination_by structural fuel _ _ _ => fuel

/-- `stripFuel` ignores the escape and string flags on an empty line. -/
theorem stripFuel_nil (f : Nat) (s e : Bool) : stripFuel f s e [] = [] := by
  cases f <;> cases e <;> rfl

/-- The fuel is irrelevant once it covers the length of the remaining line. -/
theorem stripFuel_mono : ∀ f1 f2 s e l, l.length ≤ f1 → l.length ≤ f2 →
    stripFuel f1 s e l = stripFuel f2 s e l := by
  intro f1
  induction f1 with
  | zero =>
      intro f2 s e l h1 h2
      have : l = [] := List.eq_nil_of_length_eq_zero (Nat.le_zero.mp h1)
      subst this
      rw [stripFuel_nil, stripFuel_nil]
  | succ f1 ih =>
      intro f2 s e l h1 h2
      match l with
      | [] => rw [stripFuel_nil, stripFuel_nil]
      | c :: r =>
          match f2, h2 with
          | f2 + 1, h2 =>
              simp only [List.length_cons] at h1 h2
              cases e with
              | true =>
                  simp only [stripFuel]
                  rw [ih f2 s false r (by omega) (by omega)]
              | false =>
                  simp only [stripFuel]
                  by_cases hbs : c = '\\' ∧ s = true
                  · rw [if_pos hbs, if_pos hbs, ih f2 s true r (by omega) (by omega)]
                  · rw [if_neg hbs, if_neg hbs]
                    by_cases hq : c = '\"'
                    · rw [if_pos hq, if_pos hq, ih f2 (!s) false r (by omega) (by omega)]
                    · rw [if_neg hq, if_neg hq]
                      by_cases hs : s = true
                      · rw [if_pos hs, if_pos hs, ih f2 s false r (by omega) (by omega)]
                      · rw [if_neg hs, if_neg hs]
                        by_cases hlc : c = '/' ∧ r.head? = some '/'
                        · rw [if_pos hlc, if_pos hlc]
                        · rw [if_neg hlc, if_neg hlc]
                          by_cases hbc : c = '/' ∧ r.head? = some '*'
                          · rw [if_pos hbc, if_pos hbc]
                            cases hsk : skipBlock r.tail with
                            | none => rfl
                            | some r2 =>
                                have hlt : r2.length < r.tail.length := skipBlock_length hsk
                                have hle : r.tail.length ≤ r.length := by
                                  cases r <;> simp
                                exact ih f2 false false r2 (by omega) (by omega)
                          · rw [if_neg hbc, if_neg hbc,
                              ih f2 false false r (by omega) (by omega)]

/-- The per-character scan of one line, with the canonical (exactly
sufficient) fuel. -/
def stripAux (s e : Bool) (l : List Char) : List Char := stripFuel l.length s e l

/-- One line of `strip_jsonc_comments`: scan from the initial state
(`in_string = False`, `escape_next = False`). -/
def stripLine (l : List Char) : List Char := stripAux false false l

theorem stripAux_nil (s e : Bool) : stripAux s e [] = [] := stripFuel_nil _ s e

/-- A pending escape copies the next character verbatim. -/
theorem stripAux_escape (s : Bool) (c : Char) (r : List Char) :
    stripAux s true (c :: r) = c :: stripAux s false r := rfl

/-- A backslash inside a string is copied and marks the next character
escaped. -/
theorem stripAux_backslash (r : List Char) :
    stripAux true false ('\\' :: r) = '\\' :: stripAux true true r := rfl

/-- An unescaped quote is copied and toggles the string state. -/
theorem stripAux_quote (s : Bool) (r : List Char) :
    stripAux s false ('\"' :: r) = '\"' :: stripAux (!s) false r := by
  cases s <;> rfl

/-- Inside a string every character other than a backslash or quote is copied
verbatim. -/
theorem stripAux_in_string (c : Char) (r : List Char) (h1 : c ≠ '\\') (h2 : c ≠ '\"') :
    stripAux true false (c :: r) = c :: stripAux true false r := by
  show stripFuel (r.length + 1) true false (c :: r) = _
  simp [stripFuel, h1, h2, stripAux]

/-- Outside a string, `//` discards the remainder of the line. -/
theorem stripAux_line_comment (r : List Char) :
    stripAux false false ('/' :: '/' :: r) = [] := rfl

/-- Outside a string, `/*` jumps past the matching `*/` on the same line, or
discards the remainder of the line if there is none. -/
theorem stripAux_block_comment (t : List Char) :
    stripAux false false ('/' :: '*' :: t)
      = match skipBlock t with
        | some r2 => stripAux false false r2
        | none => [] := by
  show stripFuel (t.length + 2) false false ('/' :: '*' :: t) = _
  simp only [stripFuel, List.head?_cons, List.tail_cons]
  rw [if_neg (by simp), if_neg (by simp), if_neg (by simp),
    if_neg (by simp), if_pos (by simp)]
  cases hsk : skipBlock t with
  | none => rfl
  | some r2 =>
      have hlen := skipBlock_length hsk
      show stripFuel (t.length + 1) false false r2 = stripAux false false r2
      exact stripFuel_mono (t.length + 1) r2.length false false r2 (by omega) le_rfl

/-- Outside a string, a character that is neither a quote nor a slash is
copied verbatim. -/
theorem stripAux_normal (c : Char) (r : List Char) (h1 : c ≠ '\"') (h2 : c ≠ '/') :
    stripAux false false (c :: r) = c :: stripAux false false r := by
  show stripFuel (r.length + 1) false false (c :: r) = _
  simp only [stripFuel]
  rw [if_neg (by simp), if_neg h1, if_neg (by simp),
    if_neg (by simp [h2]), if_neg (by simp [h2])]
  rfl

/-- Outside a string, a slash not followed by `/` or `*` is copied
verbatim. -/
theorem stripAux_lone_slash (r : List Char)
    (h1 : r.head? ≠ some '/') (h2 : r.head? ≠ some '*') :
    stripAux false false ('/' :: r) = '/' :: stripAux false false r := by
  show stripFuel (r.length + 1) false false ('/' :: r) = _
  simp only [stripFuel]
  rw [if_neg (by simp), if_neg (by simp), if_neg (by simp),
    if_neg (by simp [h1]), if_neg (by simp [h2])]
  rfl

/-- `text.split("\n")` of `strip_jsonc_comments`. -/
def splitLines : List Char → List (List Char)
| [] => [[]]
| c :: rest =>
  if c = '\n' then [] :: splitLines rest
  else
    match splitLines rest with
    | l :: ls => (c :: l) :: ls
    | [] => [[c]]

/-- `"\n".join(result)` of `strip_jsonc_comments`. -/
def joinLines : List (List Char) → List Char
| [] => []
| [l] => l
| l :: ls => l ++ '\n' :: joinLines ls

/-- `strip_jsonc_comments` from `parse_json.py`: split the text into lines,
scan each line independently from the initial state, and rejoin with
newlines. -/
def strip_jsonc_comments (t : List Char) : List Char :=
  joinLines ((splitLines t).map stripLine)

theorem splitLines_ne_nil (t : List Char) : splitLines t ≠ [] := by
  cases t with
  | nil => simp [splitLines]
  | cons c rest =>
      simp only [splitLines]
      split
      · simp
      · split <;> simp

theorem no_newline_mem_splitLines :
    ∀ t l, l ∈ splitLines t → '\n' ∉ l := by
  intro t
  induction t with
  | nil =>
      intro l hl
      simp [splitLines] at hl
      simp [hl]
  | cons c rest ih =>
      intro l hl
      simp only [splitLines] at hl
      by_cases hc : c = '\n'
      · rw [if_pos hc] at hl
        rcases List.mem_cons.mp hl with h | h
        · simp [h]
        · exact ih l h
      · rw [if_neg hc] at hl
        cases hsp : splitLines rest with
        | nil => exact absurd hsp (splitLines_ne_nil rest)
        | cons l0 ls =>
            rw [hsp] at hl
            rcases List.mem_cons.mp hl with h | h
            · subst h
              intro hmem
              rcases List.mem_cons.mp hmem with h | h
              · exact hc h.symm
              · exact ih l0 (by simp [hsp]) h
            · exact ih l (by simp [hsp, h])

theorem splitLines_of_no_newline (a : List Char) (ha : '\n' ∉ a) : splitLines a = [a] := by
  induction a with
  | nil => rfl
  | cons c rest ih =>
      simp only [List.mem_cons, not_or] at ha
      have hc : c ≠ '\n' := fun h => ha.1 h.symm
      simp only [splitLines, if_neg hc, ih ha.2]

theorem splitLines_append (a b : List Char) (ha : '\n' ∉ a) :
    splitLines (a ++ '\n' :: b) = a :: splitLines b := by
  induction a with
  | nil => simp [splitLines]
  | cons c rest ih =>
      simp only [List.mem_cons, not_or] at ha
      have hc : c ≠ '\n' := fun h => ha.1 h.symm
      simp only [List.cons_append, splitLines, if_neg hc, List.append_eq, ih ha.2]

theorem joinLines_cons_head (c : Char) (l : List Char) (ls : List (List Char)) :
    joinLines ((c :: l) :: ls) = c :: joinLines (l :: ls) := by
  cases ls <;> rfl

theorem joinLines_cons (l : List Char) (ls : List (List Char)) (h : ls ≠ []) :
    joinLines (l :: ls) = l ++ '\n' :: joinLines ls := by
  cases ls with
  | nil => exact absurd rfl h
  | cons l2 ls2 => rfl

theorem splitLines_joinLines :
    ∀ ls : List (List Char), (∀ l ∈ ls, '\n' ∉ l) → ls ≠ [] →
      splitLines (joinLines ls) = ls := by
  intro ls
  induction ls with
  | nil => intro _ h; exact absurd rfl h
  | cons l ls ih =>
      intro hno _
      cases ls with
      | nil =>
          show splitLines (joinLines [l]) = [l]
          exact splitLines_of_no_newline l (hno l (by simp))
      | cons l2 ls2 =>
          rw [joinLines_cons l (l2 :: ls2) (by simp),
            splitLines_append _ _ (hno l (by simp)),
            ih (fun x hx => hno x (by simp [hx])) (by simp)]

theorem joinLines_splitLines : ∀ t : List Char, joinLines (splitLines t) = t := by
  intro t
  induction t with
  | nil => rfl
  | cons c rest ih =>
      simp only [splitLines]
      by_cases hc : c = '\n'
      · rw [if_pos hc, joinLines_cons _ _ (splitLines_ne_nil rest), ih, hc]
        rfl
      · rw [if_neg hc]
        cases hsp : splitLines rest with
        | nil => exact absurd hsp (splitLines_ne_nil rest)
        | cons l0 ls =>
            rw [joinLines_cons_head, ← hsp, ih]

theorem skipBlock_mem : ∀ {l r : List Char}, skipBlock l = some r → ∀ a ∈ r, a ∈ l := by
  intro l
  induction l with
  | nil => intro r h; simp [skipBlock] at h
  | cons c1 l2 ih =>
      intro r h
      match l2, h with
      | [], h => simp [skipBlock] at h
      | c2 :: rest, h =>
          simp only [skipBlock] at h
          by_cases hc : c1 = '*' ∧ c2 = '/'
          · rw [if_pos hc] at h
            cases h
            intro a ha
            simp [ha]
          · rw [if_neg hc] at h
            intro a ha
            have := ih h a ha
            simp only [List.mem_cons] at this ⊢
            tauto

theorem stripFuel_mem : ∀ fuel s e l a, a ∈ stripFuel fuel s e l → a ∈ l := by
  intro fuel
  induction fuel with
  | zero => intro s e l a ha; simp [stripFuel] at ha
  | succ fuel ih =>
      intro s e l a ha
      match l with
      | [] => rw [stripFuel_nil] at ha; simp at ha
      | c :: r =>
          cases e with
          | true =>
              simp only [stripFuel, List.mem_cons] at ha ⊢
              rcases ha with h | h
              · exact Or.inl h
              · exact Or.inr (ih _ _ _ _ h)
          | false =>
              simp only [stripFuel] at ha
              by_cases hbs : c = '\\' ∧ s = true
              · rw [if_pos hbs] at ha
                rcases List.mem_cons.mp ha with h | h
                · simp [h]
                · simp [ih _ _ _ _ h]
              · rw [if_neg hbs] at ha
                by_cases hq : c = '\"'
                · rw [if_pos hq] at ha
                  rcases List.mem_cons.mp ha with h | h
                  · simp [h]
                  · simp [ih _ _ _ _ h]
                · rw [if_neg hq] at ha
                  by_cases hs : s = true
                  · rw [if_pos hs] at ha
                    rcases List.mem_cons.mp ha with h | h
                    · simp [h]
                    · simp [ih _ _ _ _ h]
                  · rw [if_neg hs] at ha
                    by_cases hlc : c = '/' ∧ r.head? = some '/'
                    · rw [if_pos hlc] at ha
                      simp at ha
                    · rw [if_neg hlc] at ha
                      by_cases hbc : c = '/' ∧ r.head? = some '*'
                      · rw [if_pos hbc] at ha
                        cases hsk : skipBlock r.tail with
                        | none => rw [hsk] at ha; simp at ha
                        | some r2 =>
                            rw [hsk] at ha
                            have h1 := ih _ _ _ _ ha
                            have h2 := skipBlock_mem hsk a h1
                            have h3 : a ∈ r := by
                              cases r with
                              | nil => simp [List.tail] at h2
                              | cons x xs => simp [List.tail] at h2; simp [h2]
                            simp [h3]
                      · rw [if_neg hbc] at ha
                        rcases List.mem_cons.mp ha with h | h
                        · simp [h]
                        · simp [ih _ _ _ _ h]

theorem stripLine_no_newline (l : List Char) (h : '\n' ∉ l) : '\n' ∉ stripLine l :=
  fun hmem => h (stripFuel_mem _ _ _ _ _ hmem)

theorem splitLines_strip (t : List Char) :
    splitLines (strip_jsonc_comments t) = (splitLines t).map stripLine := by
  refine splitLines_joinLines _ (fun l hl => ?_) (by
    simp [List.map_eq_nil_iff]
    exact splitLines_ne_nil t)
  rcases List.mem_map.mp hl with ⟨l0, hl0, rfl⟩
  exact stripLine_no_newline l0 (no_newline_mem_splitLines t l0 hl0)

/-- C3: stripping preserves the line structure: the lines of the output are
exactly the per-line scans of the lines of the input, so in particular the
output has the same number of lines, with line N of the output obtained from
line N of the input. -/
theorem strip_jsonc_comments_line_count (t : List Char) :
    splitLines (strip_jsonc_comments t) = (splitLines t).map stripLine
    ∧ (splitLines (strip_jsonc_comments t)).length = (splitLines t).length :=
  ⟨splitLines_strip t, by rw [splitLines_strip t, List.length_map]⟩

/-- A complete string-literal body: no unescaped quote, and no dangling
backslash at the end, so that the next unescaped `"` closes the literal. -/
def strOk : List Char → Bool
| [] => true
| c :: rest =>
  if c = '\\' then
    match rest with
    | [] => false
    | _ :: rest2 => strOk rest2
  else if c = '\"' then false
  else strOk rest

theorem strOk_backslash (rest : List Char) :
    strOk ('\\' :: rest) = match rest with | [] => false | _ :: rest2 => strOk rest2 := by
  rw [strOk.eq_def]
  simp

theorem strOk_other (c : Char) (rest : List Char) (h : c ≠ '\\') :
    strOk (c :: rest) = if c = '\"' then false else strOk rest := by
  rw [strOk.eq_def]
  simp [h]

theorem stripAux_string_body :
    ∀ n body, body.length ≤ n → strOk body = true → ∀ post : List Char,
      stripAux true false (body ++ '\"' :: post) = body ++ '\"' :: stripAux false false post := by
  intro n
  induction n with
  | zero =>
      intro body hlen _ post
      have : body = [] := List.eq_nil_of_length_eq_zero (Nat.le_zero.mp hlen)
      subst this
      simpa using stripAux_quote true post
  | succ n ih =>
      intro body hlen hok post
      match body with
      | [] => simpa using stripAux_quote true post
      | c :: rest =>
          by_cases hbs : c = '\\'
          · subst hbs
            match rest, hok with
            | [], hok => rw [strOk_backslash] at hok; cases hok
            | c2 :: rest2, hok =>
                rw [strOk_backslash] at hok
                simp only [List.cons_append, stripAux_backslash, stripAux_escape]
                simp only [List.length_cons] at hlen
                rw [ih rest2 (by omega) hok post]
          · by_cases hq : c = '\"'
            · rw [strOk_other c rest hbs, if_pos hq] at hok
              cases hok
            · rw [strOk_other c rest hbs, if_neg hq] at hok
              simp only [List.cons_append, stripAux_in_string c _ hbs hq]
              simp only [List.length_cons] at hlen
              rw [ih rest (by omega) hok post]

/-- C4: characters inside a string literal are copied verbatim.  While the
scanner is in the string state, a complete string body — which may contain
`//`, `/*` and escaped quotes — is passed through unchanged up to and
including the closing quote, after which scanning resumes in the normal
state; equally, an opening quote met in the normal state copies the whole
literal verbatim, so comment detection never triggers inside a string. -/
theorem strip_jsonc_comments_string_verbatim (body post : List Char) (h : strOk body = true) :
    stripAux true false (body ++ '\"' :: post) = body ++ '\"' :: stripAux false false post
    ∧ stripAux false false ('\"' :: (body ++ '\"' :: post))
        = '\"' :: (body ++ '\"' :: stripAux false false post) := by
  have h1 := stripAux_string_body body.length body le_rfl h post
  refine ⟨h1, ?_⟩
  rw [stripAux_quote]
  simp only [Bool.not_false]
  rw [h1]

/-- Witness for C4 at a concrete literal containing `//`, `/*` and an escaped
quote, followed by a line comment outside the string. -/
theorem strip_jsonc_comments_string_verbatim_witness :
    stripAux false false ('\"' :: ("a//b/*c\\\"d".toList ++ '\"' :: " //x".toList))
      = '\"' :: ("a//b/*c\\\"d".toList ++ '\"' :: stripAux false false (" //x".toList)) :=
  (strip_jsonc_comments_string_verbatim ("a//b/*c\\\"d".toList) (" //x".toList) (by decide)).2

/-- C5: a `/*` met in the normal state with no `*/` later on the same line
discards the remainder of that line only: the line scans to nothing, and the
text after the newline is stripped exactly as it would be on its own, so no
inside-block-comment state is carried to subsequent lines and a multi-line
block comment is never closed by the stripper. -/
theorem strip_jsonc_comments_unterminated_block (tail rest : List Char)
    (h1 : skipBlock tail = none) (h2 : '\n' ∉ tail) :
    stripLine ('/' :: '*' :: tail) = []
    ∧ strip_jsonc_comments (('/' :: '*' :: tail) ++ '\n' :: rest)
        = '\n' :: strip_jsonc_comments rest := by
  have hline : stripLine ('/' :: '*' :: tail) = [] := by
    show stripAux false false ('/' :: '*' :: tail) = []
    rw [stripAux_block_comment, h1]
  refine ⟨hline, ?_⟩
  show joinLines ((splitLines (('/' :: '*' :: tail) ++ '\n' :: rest)).map stripLine) = _
  rw [splitLines_append _ _ (by simpa using h2), List.map_cons, hline,
    joinLines_cons _ _ (by simp [List.map_eq_nil_iff]; exact splitLines_ne_nil rest)]
  rfl

/-- Witness for C5: an unterminated block comment on the first line, while
the second line, scanned afresh, keeps its content including a stray `*/`. -/
theorem strip_jsonc_comments_unterminated_block_witness :
    stripLine ('/' :: '*' :: " still open * /".toList) = []
    ∧ strip_jsonc_comments (('/' :: '*' :: " still open * /".toList) ++ '\n' :: "y */ 1".toList)
        = '\n' :: strip_jsonc_comments ("y */ 1".toList) :=
  strip_jsonc_comments_unterminated_block (" still open * /".toList) ("y */ 1".toList)
    (by decide) (by decide)

theorem stripAux_head (c : Char) (r : List Char) (h : c ≠ '/') :
    (stripAux false false (c :: r)).head? = some c := by
  by_cases hq : c = '\"'
  · subst hq
    rw [stripAux_quote]
    rfl
  · rw [stripAux_normal c r hq h]
    rfl

/-- Rescanning the output of the per-line scan changes nothing: comment
removal never creates a new comment opener or disturbs string structure. -/
theorem stripFuel_idem : ∀ fuel s e l, l.length ≤ fuel →
    stripAux s e (stripFuel fuel s e l) = stripFuel fuel s e l := by
  intro fuel
  induction fuel with
  | zero =>
      intro s e l hlen
      have : l = [] := List.eq_nil_of_length_eq_zero (Nat.le_zero.mp hlen)
      subst this
      rw [stripFuel_nil, stripAux_nil]
  | succ fuel ih =>
      intro s e l hlen
      match l with
      | [] => rw [stripFuel_nil, stripAux_nil]
      | c :: r =>
          simp only [List.length_cons] at hlen
          cases e with
          | true =>
              simp only [stripFuel, stripAux_escape]
              rw [ih s false r (by omega)]
          | false =>
              simp only [stripFuel]
              by_cases hbs : c = '\\' ∧ s = true
              · obtain ⟨hc, hs⟩ := hbs
                subst hc
                subst hs
                rw [if_pos ⟨rfl, rfl⟩, stripAux_backslash, ih true true r (by omega)]
              · rw [if_neg hbs]
                by_cases hq : c = '\"'
                · subst hq
                  rw [if_pos rfl, stripAux_quote, ih (!s) false r (by omega)]
                · rw [if_neg hq]
                  by_cases hs : s = true
                  · subst hs
                    rw [if_pos rfl]
                    have hc : c ≠ '\\' := fun h => hbs ⟨h, rfl⟩
                    rw [stripAux_in_string c _ hc hq, ih true false r (by omega)]
                  · rw [if_neg hs]
                    have hsf : s = false := by
                      cases s
                      · rfl
                      · exact absurd rfl hs
                    subst hsf
                    by_cases hlc : c = '/' ∧ r.head? = some '/'
                    · rw [if_pos hlc, stripAux_nil]
                    · rw [if_neg hlc]
                      by_cases hbc : c = '/' ∧ r.head? = some '*'
                      · rw [if_pos hbc]
                        cases hsk : skipBlock r.tail with
                        | none =>
                            show stripAux false false [] = ([] : List Char)
                            rw [stripAux_nil]
                        | some r2 =>
                            have h1 := skipBlock_length hsk
                            have h2 : r.tail.length ≤ r.length := by cases r <;> simp
                            show stripAux false false (stripFuel fuel false false r2)
                              = stripFuel fuel false false r2
                            exact ih false false r2 (by omega)
                      · rw [if_neg hbc]
                        by_cases hcs : c = '/'
                        · subst hcs
                          have hh1 : r.head? ≠ some '/' := fun h => hlc ⟨rfl, h⟩
                          have hh2 : r.head? ≠ some '*' := fun h => hbc ⟨rfl, h⟩
                          have hx : (stripFuel fuel false false r).head? ≠ some '/'
                              ∧ (stripFuel fuel false false r).head? ≠ some '*' := by
                            cases r with
                            | nil =>
                                rw [stripFuel_nil]
                                simp
                            | cons h0 r0 =>
                                simp only [List.head?_cons] at hh1 hh2
                                have hne1 : h0 ≠ '/' := fun h => hh1 (by rw [h])
                                have hne2 : h0 ≠ '*' := fun h => hh2 (by rw [h])
                                have hmono : stripFuel fuel false false (h0 :: r0)
                                    = stripAux false false (h0 :: r0) :=
                                  stripFuel_mono fuel (h0 :: r0).length false false _
                                    (by simpa using hlen) le_rfl
                                rw [hmono, stripAux_head h0 r0 hne1]
                                constructor
                                · intro h
                                  exact hne1 (by injection h)
                                · intro h
                                  exact hne2 (by injection h)
                          rw [stripAux_lone_slash _ hx.1 hx.2, ih false false r (by omega)]
                        · rw [stripAux_normal c _ hq hcs, ih false false r (by omega)]

/-- Scanner modes of the reference (cross-line) JSONC scan: outside any
construct, after a bare `/`, inside a string, after a backslash in a string,
inside a `//` comment, inside a `/* */` comment, and inside a `/* */` comment
just after a `*`. -/
inductive ScanMode where
| normal : ScanMode
| slash : ScanMode
| instr : ScanMode
| escape : ScanMode
| lineC : ScanMode
| blockC : ScanMode
| blockStar : ScanMode

/-- Modelled from the spec: one character step of a reference JSONC scanner
that, unlike `strip_jsonc_comments`, does track block-comment state across
line boundaries.  It emits the characters outside comments (keeping newlines
inside comments to preserve line numbers) and is used to define which inputs
have comments as their only non-JSON content. -/
def refStep : ScanMode → Char → List Char × ScanMode
| ScanMode.normal, c =>
    if c = '\"' then ([c], ScanMode.instr)
    else if c = '/' then ([], ScanMode.slash)
    else ([c], ScanMode.normal)
| ScanMode.slash, c =>
    if c = '/' then ([], ScanMode.lineC)
    else if c = '*' then ([], ScanMode.blockC)
    else if c = '\"' then (['/', c], ScanMode.instr)
    else (['/', c], ScanMode.normal)
| ScanMode.instr, c =>
    if c = '\"' then ([c], ScanMode.normal)
    else if c = '\\' then ([c], ScanMode.escape)
    else ([c], ScanMode.instr)
| ScanMode.escape, c => ([c], ScanMode.instr)
| ScanMode.lineC, c =>
    if c = '\n' then ([c], ScanMode.normal) else ([], ScanMode.lineC)
| ScanMode.blockC, c =>
    if c = '*' then ([], ScanMode.blockStar)
    else if c = '\n' then ([c], ScanMode.blockC)
    else ([], ScanMode.blockC)
| ScanMode.blockStar, c =>
    if c = '/' then ([], ScanMode.normal)
    else if c = '*' then ([], ScanMode.blockStar)
    else if c = '\n' then ([c], ScanMode.blockC)
    else ([], ScanMode.blockC)

/-- Modelled from the spec: run the reference scanner, returning the emitted
text and the final mode. -/
def refAux : ScanMode → List Char → List Char × ScanMode
| m, [] => ([], m)
| m, c :: r =>
  let p := refStep m c
  let q := refAux p.2 r
  (p.1 ++ q.1, q.2)

/-- A pending bare `/` at end of input belongs to no comment and is emitted. -/
def flushMode : ScanMode → List Char
| ScanMode.slash => ['/']
| _ => []

/-- Modelled from the spec: the comment-free equivalent of a JSONC text — the
text with exactly the comment regions removed (newlines inside block comments
kept). -/
def refStripText (t : List Char) : List Char :=
  (refAux ScanMode.normal t).1 ++ flushMode (refAux ScanMode.normal t).2

/-- The reference scan of the line, started in normal mode, with the pending
slash flushed. -/
def refFrom (m : ScanMode) (l : List Char) : List Char :=
  (refAux m l).1 ++ flushMode (refAux m l).2

/-- The reference scan of this line ends outside strings and block comments,
so no scanner state would have to cross the following newline. -/
def lineEndOk (l : List Char) : Bool :=
  match (refAux ScanMode.normal l).2 with
  | ScanMode.normal => true
  | ScanMode.slash => true
  | ScanMode.lineC => true
  | _ => false

/-- No scanner state has to cross any line boundary: on every line, comments
open and close within the line and strings do not span the newline. -/
def noCross (t : List Char) : Bool := (splitLines t).all lineEndOk

/-- C9: `strip_jsonc_comments` is idempotent: stripping its own output
returns it unchanged. -/
theorem strip_jsonc_comments_idempotent (t : List Char) :
    strip_jsonc_comments (strip_jsonc_comments t) = strip_jsonc_comments t := by
  show joinLines ((splitLines (strip_jsonc_comments t)).map stripLine) = _
  rw [splitLines_strip, List.map_map]
  congr 1
  refine List.map_congr_left (fun l _ => ?_)
  show stripLine (stripLine l) = stripLine l
  exact stripFuel_idem l.length false false l le_rfl

/-- JSON whitespace as accepted by `json.loads`. -/
def isJsonWs (c : Char) : Bool :=
  c = ' ' || c = '\t' || c = '\n' || c = '\r'

def jsonSkipWs : List Char → List Char
| c :: r => if isJsonWs c then jsonSkipWs r else c :: r
| [] => []

/-- Two-character escape sequences of strict JSON strings. -/
def jsonUnescape : Char → Option Char
| '\"' => some '\"'
| '\\' => some '\\'
| '/' => some '/'
| 'b' => some (Char.ofNat 8)
| 'f' => some (Char.ofNat 12)
| 'n' => some '\n'
| 'r' => some '\r'
| 't' => some '\t'
| _ => none

def hexDigit (c : Char) : Option Nat :=
  if '0' ≤ c ∧ c ≤ '9' then some (c.toNat - '0'.toNat)
  else if 'a' ≤ c ∧ c ≤ 'f' then some (c.toNat - 'a'.toNat + 10)
  else if 'A' ≤ c ∧ c ≤ 'F' then some (c.toNat - 'A'.toNat + 10)
  else none

/-- Modelled from the spec: the string production of strict JSON as accepted
by `json.loads` (strict mode): after the opening quote, everything up to the
closing quote, with two-character escapes and `\uXXXX`, and no raw control
characters.  Surrogate-pair recombination is not modelled. -/
def parseJsonString : List Char → Option (List Char × List Char)
| [] => none
| '\"' :: r => some ([], r)
| '\\' :: 'u' :: a :: b :: c :: d :: r => do
    let va ← hexDigit a
    let vb ← hexDigit b
    let vc ← hexDigit c
    let vd ← hexDigit d
    let p ← parseJsonString r
    some (Char.ofNat (((va * 16 + vb) * 16 + vc) * 16 + vd) :: p.1, p.2)
| '\\' :: e :: r => do
    let ch ← jsonUnescape e
    let p ← parseJsonString r
    some (ch :: p.1, p.2)
| c :: r =>
    if c.toNat < 32 then none
    else do
      let p ← parseJsonString r
      some (c :: p.1, p.2)

def jsonTakeDigits : List Char → List Char × List Char
| c :: r =>
    if c.isDigit then
      let p := jsonTakeDigits r
      (c :: p.1, p.2)
    else ([], c :: r)
| [] => ([], [])

def digitsVal (ds : List Char) : Nat :=
  ds.foldl (fun acc c => acc * 10 + (c.toNat - '0'.toNat)) 0

/-- Modelled from the spec: the number production of strict JSON, restricted
to integers (no leading zeros); numerals with a fraction or exponent part are
outside this model (every number in the scenarios below is an integer). -/
def parseJsonNumber (cs : List Char) : Option (Int × List Char) :=
  let sign : Bool × List Char := match cs with | '-' :: r => (true, r) | _ => (false, cs)
  let p := jsonTakeDigits sign.2
  if p.1 = [] then none
  else if p.1.length > 1 ∧ p.1.head? = some '0' then none
  else match p.2 with
    | '.' :: _ => none
    | 'e' :: _ => none
    | 'E' :: _ => none
    | _ => some ((if sign.1 then -1 else 1) * (digitsVal p.1 : Int), p.2)

mutual
/-- Modelled from the spec: a strict JSON value as parsed by `json.loads`,
by recursive descent; the fuel is structural and any amount at least the
input length plus one suffices. -/
def parseJsonValue : Nat → List Char → Option (Json × List Char)
| 0, _ => none
| fuel + 1, cs =>
  match jsonSkipWs cs with
  | 'n' :: 'u' :: 'l' :: 'l' :: r => some (Json.null, r)
  | 't' :: 'r' :: 'u' :: 'e' :: r => some (Json.bool true, r)
  | 'f' :: 'a' :: 'l' :: 's' :: 'e' :: r => some (Json.bool false, r)
  | '\"' :: r => do
      let p ← parseJsonString r
      some (Json.str (String.mk p.1), p.2)
  | '[' :: r =>
      (match jsonSkipWs r with
       | ']' :: r2 => some (Json.arr [], r2)
       | cs2 => do
          let p ← parseJsonElems fuel cs2
          some (Json.arr p.1, p.2))
  | '{' :: r =>
      (match jsonSkipWs r with
       | '}' :: r2 => some (Json.obj [], r2)
       | cs2 => do
          let p ← parseJsonMembers fuel cs2
          some (Json.obj p.1, p.2))
  | cs2 => do
      let p ← parseJsonNumber cs2
      some (Json.num p.1, p.2)

/-- One or more comma-separated array elements, then `]`. -/
def parseJsonElems : Nat → List Char → Option (List Json × List Char)
| 0, _ => none
| fuel + 1, cs => do
    let p ← parseJsonValue fuel cs
    match jsonSkipWs p.2 with
    | ',' :: r => do
        let q ← parseJsonElems fuel r
        some (p.1 :: q.1, q.2)
    | ']' :: r => some ([p.1], r)
    | _ => none

/-- One or more comma-separated `"key": value` members, then `}`. -/
def parseJsonMembers : Nat → List Char → Option (List (String × Json) × List Char)
| 0, _ => none
| fuel + 1, cs =>
  match jsonSkipWs cs with
  | '\"' :: r => do
      let k ← parseJsonString r
      match jsonSkipWs k.2 with
      | ':' :: r2 => do
          let v ← parseJsonValue fuel r2
          match jsonSkipWs v.2 with
          | ',' :: r3 => do
              let q ← parseJsonMembers fuel r3
              some ((String.mk k.1, v.1) :: q.1, q.2)
          | '}' :: r3 => some ([(String.mk k.1, v.1)], r3)
          | _ => none
      | _ => none
  | _ => none
end

/-- Modelled from the spec: `json.loads` — parse one strict JSON document and
require only whitespace after it. -/
def jsonParse (cs : List Char) : Option Json :=
  match parseJsonValue (2 * cs.length + 2) cs with
  | some (v, rest) => if jsonSkipWs rest = [] then some v else none
  | none => none

/-- Modelled from the spec: the only non-JSON content of the text is `//`
line comments and `/* ... */` block comments outside string literals — the
reference scan ends outside any block comment and the text with exactly the
comment regions removed parses as strict JSON. -/
def validJsonc (t : List Char) : Bool :=
  (match (refAux ScanMode.normal t).2 with
   | ScanMode.blockC => false
   | ScanMode.blockStar => false
   | _ => true)
  && (jsonParse (refStripText t)).isSome

theorem refFrom_cons (m : ScanMode) (c : Char) (r : List Char) :
    refFrom m (c :: r) = (refStep m c).1 ++ refFrom (refStep m c).2 r := by
  simp [refFrom, refAux, List.append_assoc]

theorem refAux_lineC_drops (l : List Char) (h : '\n' ∉ l) :
    refAux ScanMode.lineC l = ([], ScanMode.lineC) := by
  induction l with
  | nil => rfl
  | cons c r ih =>
      simp only [List.mem_cons, not_or] at h
      have hc : c ≠ '\n' := fun hx => h.1 hx.symm
      simp [refAux, refStep, hc, ih h.2]

theorem skipBlock_cons_ne (c : Char) (r : List Char) (h : c ≠ '*') :
    skipBlock (c :: r) = skipBlock r := by
  cases r with
  | nil => rfl
  | cons c2 r2 => simp [skipBlock, fun hx => h hx]

theorem skipBlock_star (c : Char) (r : List Char) :
    skipBlock ('*' :: c :: r) = if c = '/' then some r else skipBlock (c :: r) := by
  simp [skipBlock]

/-- On a single line (no newline), the per-line scan of `strip_jsonc_comments`
computes exactly the reference scan started in the corresponding mode: the six
conjuncts cover the normal state, the in-string state, the pending-escape
state, the inside-block-comment state (where the Python code scans for `*/`
with `find`), the block-comment-after-`*` state, and the state after a bare
slash. -/
theorem strip_refFrom_equiv : ∀ n l, l.length ≤ n → '\n' ∉ l →
    (stripAux false false l = refFrom ScanMode.normal l)
    ∧ (stripAux true false l = refFrom ScanMode.instr l)
    ∧ (stripAux true true l = refFrom ScanMode.escape l)
    ∧ ((match skipBlock l with
        | some r => stripAux false false r
        | none => []) = refFrom ScanMode.blockC l)
    ∧ ((match skipBlock ('*' :: l) with
        | some r => stripAux false false r
        | none => []) = refFrom ScanMode.blockStar l)
    ∧ (stripAux false false ('/' :: l) = refFrom ScanMode.slash l) := by
  intro n
  induction n with
  | zero =>
      intro l hlen _
      have : l = [] := List.eq_nil_of_length_eq_zero (Nat.le_zero.mp hlen)
      subst this
      exact ⟨rfl, rfl, rfl, rfl, rfl, rfl⟩
  | succ n ih =>
      intro l hlen hnl
      match l with
      | [] => exact ⟨rfl, rfl, rfl, rfl, rfl, rfl⟩
      | c :: r =>
          simp only [List.length_cons] at hlen
          simp only [List.mem_cons, not_or] at hnl
          have hc : c ≠ '\n' := fun hx => hnl.1 hx.symm
          have hnr : '\n' ∉ r := hnl.2
          obtain ⟨ih1, ih2, ih3, ih4, ih5, ih6⟩ := ih r (by omega) hnr
          have h1 : stripAux false false (c :: r) = refFrom ScanMode.normal (c :: r) := by
            rw [refFrom_cons]
            by_cases hq : c = '\"'
            · subst hq
              rw [stripAux_quote]
              simp only [Bool.not_false]
              rw [ih2]
              simp [refStep]
            · by_cases hsl : c = '/'
              · subst hsl
                rw [ih6]
                simp [refStep]
              · rw [stripAux_normal c r hq hsl, ih1]
                simp [refStep, hq, hsl]
          have h2 : stripAux true false (c :: r) = refFrom ScanMode.instr (c :: r) := by
            rw [refFrom_cons]
            by_cases hq : c = '\"'
            · subst hq
              rw [stripAux_quote]
              simp only [Bool.not_true]
              rw [ih1]
              simp [refStep]
            · by_cases hbs : c = '\\'
              · subst hbs
                rw [stripAux_backslash, ih3]
                simp [refStep]
              · rw [stripAux_in_string c r hbs hq, ih2]
                simp [refStep, hq, hbs]
          have h3 : stripAux true true (c :: r) = refFrom ScanMode.escape (c :: r) := by
            rw [refFrom_cons, stripAux_escape, ih2]
            simp [refStep]
          have h4 : (match skipBlock (c :: r) with
              | some r2 => stripAux false false r2
              | none => []) = refFrom ScanMode.blockC (c :: r) := by
            rw [refFrom_cons]
            by_cases hstar : c = '*'
            · subst hstar
              rw [ih5]
              simp [refStep]
            · rw [skipBlock_cons_ne c r hstar, ih4]
              simp [refStep, hstar, hc]
          have h5 : (match skipBlock ('*' :: c :: r) with
              | some r2 => stripAux false false r2
              | none => []) = refFrom ScanMode.blockStar (c :: r) := by
            rw [refFrom_cons, skipBlock_star]
            by_cases hsl : c = '/'
            · subst hsl
              rw [if_pos rfl]
              show stripAux false false r = _
              rw [ih1]
              simp [refStep]
            · rw [if_neg hsl]
              by_cases hstar : c = '*'
              · subst hstar
                rw [ih5]
                simp [refStep]
              · rw [skipBlock_cons_ne c r hstar, ih4]
                simp [refStep, hsl, hstar, hc]
          have h6 : stripAux false false ('/' :: c :: r) = refFrom ScanMode.slash (c :: r) := by
            rw [refFrom_cons]
            by_cases hsl : c = '/'
            · subst hsl
              rw [stripAux_line_comment]
              simp [refStep, refFrom, refAux_lineC_drops r hnr, flushMode]
            · by_cases hstar : c = '*'
              · subst hstar
                rw [stripAux_block_comment, ih4]
                simp [refStep]
              · rw [stripAux_lone_slash (c :: r) (by simp [hsl]) (by simp [hstar]), h1,
                  refFrom_cons ScanMode.normal c r]
                by_cases hq : c = '\"'
                · subst hq
                  simp [refStep]
                · simp [refStep, hsl, hstar, hq]
          exact ⟨h1, h2, h3, h4, h5, h6⟩

/-- On a newline-free line, the per-line scan equals the reference scan from
the normal mode. -/
theorem stripLine_eq_refFrom (l : List Char) (h : '\n' ∉ l) :
    stripLine l = refFrom ScanMode.normal l :=
  (strip_refFrom_equiv l.length l le_rfl h).1

theorem refAux_append (a b : List Char) : ∀ m,
    refAux m (a ++ b)
      = ((refAux m a).1 ++ (refAux (refAux m a).2 b).1, (refAux (refAux m a).2 b).2) := by
  induction a with
  | nil => intro m; simp [refAux]
  | cons c r ih =>
      intro m
      simp [refAux, ih, List.append_assoc]

theorem joinLines_strip_eq_ref : ∀ ls : List (List Char), ls ≠ [] →
    (∀ l ∈ ls, '\n' ∉ l) → ls.all lineEndOk = true →
    joinLines (ls.map stripLine) = refStripText (joinLines ls) := by
  intro ls
  induction ls with
  | nil => intro h; exact absurd rfl h
  | cons l ls ih =>
      intro _ hno hok
      simp only [List.all_cons, Bool.and_eq_true] at hok
      cases ls with
      | nil =>
          show stripLine l = refStripText (joinLines [l])
          exact stripLine_eq_refFrom l (hno l (by simp))
      | cons l2 ls2 =>
          rw [List.map_cons, joinLines_cons _ _ (by simp),
            joinLines_cons l (l2 :: ls2) (by simp)]
          have hrest := ih (by simp) (fun x hx => hno x (by simp [hx])) hok.2
          rw [List.map_cons] at hrest
          have hline := stripLine_eq_refFrom l (hno l (by simp))
          have hmode := hok.1
          unfold lineEndOk at hmode
          show stripLine l ++ '\n' :: joinLines (stripLine l2 :: ls2.map stripLine)
            = refStripText (l ++ '\n' :: joinLines (l2 :: ls2))
          rw [hrest, hline]
          unfold refStripText refFrom
          rw [refAux_append]
          revert hmode
          cases hm : (refAux ScanMode.normal l).2 <;> intro hmode <;> simp at hmode <;>
            simp [refAux, refStep, flushMode, List.append_assoc]

/-- C1 (amended): when no scanner state would have to cross a line boundary —
every block comment closes on the line where it opens, and no string spans a
newline — `strip_jsonc_comments` produces exactly the reference comment-free
text, so stripping then parsing yields precisely the Document of the
equivalent comment-free JSON.  (The unrestricted claim fails in both
directions; see the counterexample.) -/
theorem strip_jsonc_comments_comment_removal (t : List Char) (h : noCross t = true) :
    strip_jsonc_comments t = refStripText t
    ∧ jsonParse (strip_jsonc_comments t) = jsonParse (refStripText t) := by
  have hmain : strip_jsonc_comments t = refStripText t := by
    have h1 := joinLines_strip_eq_ref (splitLines t) (splitLines_ne_nil t)
      (no_newline_mem_splitLines t) h
    rw [joinLines_splitLines] at h1
    exact h1
  exact ⟨hmain, by rw [hmain]⟩

/-- Witness for the amended C1 at a concrete JSONC document whose comments
are all confined to single lines. -/
theorem strip_jsonc_comments_comment_removal_witness :
    strip_jsonc_comments ("\x7b\"a\": 1, // c\n\"b\": [2] /* k */ \x7d".toList)
        = refStripText ("\x7b\"a\": 1, // c\n\"b\": [2] /* k */ \x7d".toList)
    ∧ jsonParse (strip_jsonc_comments ("\x7b\"a\": 1, // c\n\"b\": [2] /* k */ \x7d".toList))
        = jsonParse (refStripText ("\x7b\"a\": 1, // c\n\"b\": [2] /* k */ \x7d".toList)) :=
  strip_jsonc_comments_comment_removal ("\x7b\"a\": 1, // c\n\"b\": [2] /* k */ \x7d".toList) rfl

/-- C1 counterexample.  Forward direction: `{"a": /* x\ny */ 1}` is valid
JSONC — its only non-JSON content is one block comment — yet the stripped
text no longer parses, while the comment-free equivalent does.  Converse
direction: `{"a": 1} /*x` is not valid JSONC (its trailing block comment is
never closed), yet its stripped text parses as strict JSON. -/
theorem strip_jsonc_comments_iff_counterexample :
    (validJsonc ("\x7b\"a\": /* x\ny */ 1\x7d".toList) = true
      ∧ jsonParse (strip_jsonc_comments ("\x7b\"a\": /* x\ny */ 1\x7d".toList)) = none
      ∧ (jsonParse (refStripText ("\x7b\"a\": /* x\ny */ 1\x7d".toList))).isSome = true)
    ∧ (validJsonc ("\x7b\"a\": 1\x7d /*x".toList) = false
      ∧ (jsonParse (strip_jsonc_comments ("\x7b\"a\": 1\x7d /*x".toList))).isSome = true) :=
  ⟨⟨rfl, rfl, rfl⟩, ⟨rfl, rfl⟩⟩

/-- A Python exception class as far as the driver's `except` clauses
distinguish them: `RuntimeError` (raised by `export_to_ods` when `odfpy` is
missing) versus any other `Exception` (e.g. an `OSError` while saving). -/
inductive PyExc where
| runtimeError : PyExc
| otherExc : PyExc

/-- Observable outcome of the export phase of `main`: what was printed, in
order, whether `export_to_latex` was invoked, and an exception that escaped
uncaught, if any. -/
structure ExportPhaseResult where
  printed : List String
  latexAttempted : Bool
  uncaught : Option PyExc

/-- The export phase of `main` (the two trailing `if` blocks): the ODS block
catches only `RuntimeError` and prints a diagnostic; any other exception from
`export_to_ods` propagates, aborting the run before the LaTeX block.  The
LaTeX block catches every `Exception`.  The outcome of each exporter call is
passed in as `none` (success) or `some` exception. -/
def mainExportPhase (exportOds exportLatex : Bool)
    (odsOutcome latexOutcome : Option PyExc) : ExportPhaseResult :=
  match exportOds, odsOutcome with
  | true, some PyExc.otherExc =>
      { printed := [], latexAttempted := false, uncaught := some PyExc.otherExc }
  | odsReq, odsRes =>
      let odsMsgs : List String :=
        if odsReq then
          match odsRes with
          | none => ["Exported IP card to ODS"]
          | some _ => ["Failed to export to ODS"]
        else []
      if exportLatex then
        match latexOutcome with
        | none =>
            { printed := odsMsgs ++ ["Exported IP card to LaTeX"],
              latexAttempted := true, uncaught := none }
        | some _ =>
            { printed := odsMsgs ++ ["Failed to export to LaTeX"],
              latexAttempted := true, uncaught := none }
      else { printed := odsMsgs, latexAttempted := false, uncaught := none }

/-- C7 counterexample: with both exports requested, an ODS failure that is
not a `RuntimeError` (for example an `OSError` while saving the spreadsheet)
is not caught: no diagnostic is printed, the exception escapes, and the LaTeX
export is never attempted. -/
theorem main_export_ods_failure_counterexample :
    (mainExportPhase true true (some PyExc.otherExc) none).latexAttempted = false
    ∧ (mainExportPhase true true (some PyExc.otherExc) none).uncaught = some PyExc.otherExc
    ∧ (mainExportPhase true true (some PyExc.otherExc) none).printed = [] :=
  ⟨rfl, rfl, rfl⟩

/-- C7 (amended): with both exports requested, an ODS failure of the
`RuntimeError` kind (the missing-dependency error that `export_to_ods` itself
raises) is caught, a diagnostic is printed, and the LaTeX export is still
attempted, whatever its own outcome; only failures of other exception types
abort the run before the LaTeX attempt. -/
theorem main_export_ods_failure_caught (latexOutcome : Option PyExc) :
    (mainExportPhase true true (some PyExc.runtimeError) latexOutcome).uncaught = none
    ∧ "Failed to export to ODS"
        ∈ (mainExportPhase true true (some PyExc.runtimeError) latexOutcome).printed
    ∧ (mainExportPhase true true (some PyExc.runtimeError) latexOutcome).latexAttempted = true := by
  cases latexOutcome with
  | none => exact ⟨rfl, by simp [mainExportPhase], rfl⟩
  | some e => exact ⟨rfl, by simp [mainExportPhase], rfl⟩

/-- The single-quote character, written by code point to keep string literals
plain. -/
def pyQuote : Char := Char.ofNat 39

/-- Python `repr` of a string: quoted (single quotes unless the string
contains one and no double quote), with backslash, the quote character and
common control characters escaped. -/
def pyStrRepr (s : String) : String :=
  let hasS := s.toList.contains pyQuote
  let hasD := s.toList.contains '\"'
  let q : Char := if hasS ∧ ¬hasD then '\"' else pyQuote
  let esc : Char → List Char := fun c =>
    if c = '\\' then ['\\', '\\']
    else if c = q then ['\\', q]
    else if c = '\n' then ['\\', 'n']
    else if c = '\r' then ['\\', 'r']
    else if c = '\t' then ['\\', 't']
    else [c]
  String.mk (q :: (s.toList.map esc).flatten ++ [q])

mutual
/-- Python `repr` of a value parsed by `json.loads`: `None`, `True`, `False`,
decimal integers, quoted strings, and bracketed containers with `, ` and
`: ` separators. -/
def pyRepr : Json → String
| Json.null => "None"
| Json.bool true => "True"
| Json.bool false => "False"
| Json.num n => toString n
| Json.str s => pyStrRepr s
| Json.arr xs => "[" ++ pyReprList xs ++ "]"
| Json.obj kvs => "\x7b" ++ pyReprMembers kvs ++ "\x7d"

/-- `repr` of the elements of a list, comma separated. -/
def pyReprList : List Json → String
| [] => ""
| [x] => pyRepr x
| x :: rest => pyRepr x ++ ", " ++ pyReprList rest

/-- `repr` of the members of a dict, comma separated. -/
def pyReprMembers : List (String × Json) → String
| [] => ""
| [(k, v)] => pyStrRepr k ++ ": " ++ pyRepr v
| (k, v) :: rest => pyStrRepr k ++ ": " ++ pyRepr v ++ ", " ++ pyReprMembers rest
end

/-- Python `str` of a value parsed by `json.loads`: like `repr`, except that
a string is returned bare. -/
def pyStr : Json → String
| Json.str s => s
| v => pyRepr v

/-- `str(value) if value is not None else ""` as used on leaf values by
`export_to_latex`. -/
def latexValueStr : Json → String
| Json.null => ""
| v => pyStr v

/-- `escape_latex` from `export_to_latex`: the replacement chain in source
order, backslash first; later replacements do rewrite the braces introduced
by the backslash replacement, exactly as in the Python code. -/
def escape_latex (text : String) : String :=
  let t := text.replace "\\" "\\textbackslash\x7b\x7d"
  let t := t.replace "&" "\\&"
  let t := t.replace "%" "\\%"
  let t := t.replace "$" "\\$"
  let t := t.replace "#" "\\#"
  let t := t.replace "_" "\\_"
  let t := t.replace "\x7b" "\\\x7b"
  let t := t.replace "\x7d" "\\\x7d"
  let t := t.replace "~" "$\\sim$"
  let t := t.replace "<" "$<$"
  let t := t.replace ">" "$>$"
  t.replace "^" "\\textasciicircum\x7b\x7d"

/-- `re.sub(r'([a-z])([A-Z])', r'\1 \2', key)`: insert a space between an
ASCII lowercase letter and the ASCII uppercase letter that follows it. -/
def camelSplit : List Char → List Char
| c1 :: c2 :: rest =>
    if c1.isLower ∧ c2.isUpper then c1 :: ' ' :: camelSplit (c2 :: rest)
    else c1 :: camelSplit (c2 :: rest)
| l => l

/-- `format_field_name` from `export_to_latex`: split camelCase with spaces
and capitalise the first letter. -/
def format_field_name (key : String) : String :=
  match camelSplit key.toList with
  | [] => ""
  | c :: rest => String.mk (c.toUpper :: rest)

/-- `process_dict_to_rows` from `export_to_latex`: a nested one-level dict
becomes one `(field, subfield, value)` row per member; any other value
becomes a single `(field, "", value)` row.  `none` models the `AttributeError`
the Python code raises when a section value is not a dict at all. -/
def process_dict_to_rows : Json → Option (List (String × String × String))
| Json.obj kvs => some ((kvs.map fun kv =>
    match kv.2 with
    | Json.obj sub =>
        sub.map fun skv => (format_field_name kv.1, format_field_name skv.1, latexValueStr skv.2)
    | v => [(format_field_name kv.1, "", latexValueStr v)]).flatten)
| _ => none

/-- The grouping loop of `export_to_latex`: split the rows into maximal runs
with the same field name, keeping the `(subfield, value)` pairs of each run
in order. -/
def groupAux : String → List (String × String) → List (String × String × String) →
    List (String × List (String × String))
| cur, acc, [] => [(cur, acc.reverse)]
| cur, acc, (f, s, v) :: rest =>
    if f = cur then groupAux cur ((s, v) :: acc) rest
    else (cur, acc.reverse) :: groupAux f [(s, v)] rest

/-- Entry point of the grouping loop (`current_field = None` start). -/
def groupRows : List (String × String × String) → List (String × List (String × String))
| [] => []
| (f, s, v) :: rest => groupAux f [(s, v)] rest

/-- The row-emitting branch of `export_to_latex` for one field group:
multirow for a group of several rows, multirow of height 1 for a single row
that has a subfield, and a plain `\textit` row (value in the middle column)
otherwise. -/
def renderGroup (g : String × List (String × String)) : List String :=
  match g.2 with
  | [] => []
  | [(sub, val)] =>
      if sub ≠ "" then
        ["\\multirow\x7b1\x7d\x7b*\x7d\x7b\\textit\x7b" ++ escape_latex g.1
          ++ "\x7d\x7d & " ++ escape_latex sub ++ " & " ++ escape_latex val ++ " \\\\"]
      else
        ["\\textit\x7b" ++ escape_latex g.1 ++ "\x7d & " ++ escape_latex val ++ " &  \\\\"]
  | (sub0, val0) :: rest =>
      ("\\multirow\x7b" ++ toString g.2.length ++ "\x7d\x7b*\x7d\x7b\\textit\x7b"
        ++ escape_latex g.1 ++ "\x7d\x7d & " ++ escape_latex sub0 ++ " & "
        ++ escape_latex val0 ++ " \\\\")
      :: rest.map fun sv => " & " ++ escape_latex sv.1 ++ " & " ++ escape_latex sv.2 ++ " \\\\"

/-- Field groups of one section, with `\midrule` after each group except the
last. -/
def renderGroups : List (String × List (String × String)) → List String
| [] => []
| [g] => renderGroup g
| g :: gs => renderGroup g ++ "\\midrule" :: renderGroups gs

/-- `section_order` from `export_to_latex`. -/
def sectionOrder : List (String × String) := [
  ("basicInfo", "Basic Info"),
  ("systemLevelFeatures", "System-Level Features"),
  ("architecture", "Architecture"),
  ("microarchitecture", "Microarchitecture"),
  ("software", "Software"),
  ("integration", "Integration"),
  ("physicalImplementation", "Physical Implementation")]

/-- The top-level keys the LaTeX exporter recognises. -/
def sectionKeys : List String := sectionOrder.map Prod.fst

/-- Python dict lookup on the top-level data, as an association-list
lookup. -/
def lookupKey (data : List (String × Json)) (k : String) : Option Json :=
  (data.find? fun kv => kv.1 == k).map fun kv => kv.2

/-- `section_order[section_order.index((section_key, title)) + 1:]`. -/
def remainingSections (key : String) : List (String × String) :=
  (sectionOrder.dropWhile fun p => p.1 ≠ key).drop 1

/-- One section of the LaTeX body: skipped entirely when the key is absent;
otherwise the `\multicolumn` header, the rendered field groups, and a
`\toprule` when this is not the last listed section and a later listed
section is present in the data. -/
def sectionBlock (data : List (String × Json)) (p : String × String) : Option (List String) :=
  match lookupKey data p.1 with
  | none => some []
  | some v => do
      let rows ← process_dict_to_rows v
      let body := renderGroups (groupRows rows)
      let header := "\\multicolumn\x7b3\x7d\x7bc\x7d\x7b\\textbf\x7b"
        ++ escape_latex p.2 ++ "\x7d\x7d \\\\ \\toprule"
      let trail : List String :=
        if p.1 = "physicalImplementation" then []
        else if (remainingSections p.1).any (fun q => (lookupKey data q.1).isSome)
        then ["\\toprule"] else []
      some (header :: body ++ trail)

/-- The fixed lines emitted before any section by `export_to_latex`. -/
def latexPreamble : List String := [
  "% Please add the following required packages to your document preamble:",
  "% \\usepackage\x7bbooktabs\x7d",
  "% \\usepackage\x7bmultirow\x7d",
  "% \\usepackage\x7blongtable\x7d",
  "% Note: It may be necessary to compile the document several times to get a multi-page table to line up properly",
  "",
  "\\begin\x7btable\x7d[h!]",
  "% \\caption\x7bIP Card\x7d",
  "% \\resizebox\x7b\\textwidth\x7d\x7b!\x7d\x7b%",
  "\\centering",
  "\\scalebox\x7b0.5558\x7d\x7b%",
  "\\begin\x7btabular\x7d\x7b@\x7b\x7dlll@\x7b\x7d\x7d",
  "\\toprule"]

/-- The fixed lines emitted after the last section by `export_to_latex`. -/
def latexFooter : List String := [
  "\\bottomrule",
  "\\end\x7btabular\x7d%",
  "\x7d",
  "\\end\x7btable\x7d"]

/-- `export_to_latex` from `parse_json.py`, up to the file write: the list of
lines whose newline-join is written to the output path.  `none` models an
exception escaping (a section value that is not a dict). -/
def export_to_latex_lines (data : List (String × Json)) : Option (List String) := do
  let blocks ← sectionOrder.mapM fun p => sectionBlock data p
  some (latexPreamble ++ blocks.flatten ++ latexFooter)

theorem list_any_congr {α : Type} (l : List α) (f g : α → Bool)
    (h : ∀ a ∈ l, f a = g a) : l.any f = l.any g := by
  induction l with
  | nil => rfl
  | cons a l ih =>
      simp only [List.any_cons, h a (by simp), ih (fun x hx => h x (by simp [hx]))]

theorem remainingSections_subset (key : String) (q : String × String)
    (hq : q ∈ remainingSections key) : q ∈ sectionOrder := by
  unfold remainingSections at hq
  exact (List.dropWhile_sublist _).subset ((List.drop_sublist 1 _).subset hq)

theorem list_mapM_congr {α β : Type} (l : List α) (f g : α → Option β)
    (h : ∀ a ∈ l, f a = g a) : l.mapM f = l.mapM g := by
  induction l with
  | nil => rfl
  | cons a l ih =>
      rw [List.mapM_cons, List.mapM_cons, h a (by simp),
        ih (fun x hx => h x (by simp [hx]))]

theorem mapM_blocks_empty {α : Type} (l : List α) (f : α → Option (List String))
    (h : ∀ a ∈ l, f a = some []) :
    ∃ bs, l.mapM f = some bs ∧ bs.flatten = [] := by
  induction l with
  | nil => exact ⟨[], rfl, rfl⟩
  | cons a l ih =>
      obtain ⟨bs, h1, h2⟩ := ih (fun x hx => h x (by simp [hx]))
      refine ⟨[] :: bs, ?_, by simp [h2]⟩
      rw [List.mapM_cons, h a (by simp), h1]
      rfl

/-- A section block depends on the data only through the lookups of the seven
listed section keys. -/
theorem sectionBlock_congr (d1 d2 : List (String × Json))
    (h : ∀ k ∈ sectionKeys, lookupKey d1 k = lookupKey d2 k)
    (p : String × String) (hp : p ∈ sectionOrder) :
    sectionBlock d1 p = sectionBlock d2 p := by
  have hk : lookupKey d1 p.1 = lookupKey d2 p.1 :=
    h p.1 (List.mem_map_of_mem Prod.fst hp)
  have hany : ((remainingSections p.1).any fun q => (lookupKey d1 q.1).isSome)
      = ((remainingSections p.1).any fun q => (lookupKey d2 q.1).isSome) := by
    refine list_any_congr _ _ _ (fun q hq => ?_)
    rw [h q.1 (List.mem_map_of_mem Prod.fst (remainingSections_subset p.1 q hq))]
  unfold sectionBlock
  rw [hk, hany]

/-- C8: the LaTeX exporter renders only the fixed ordered list of top-level
section keys: its output depends on the input dictionary only through the
lookups of those seven keys (so any other top-level key contributes nothing),
and when none of the listed keys is present the output is exactly the fixed
preamble and footer, without error. -/
theorem export_to_latex_fixed_sections :
    (∀ d1 d2 : List (String × Json),
      (∀ k ∈ sectionKeys, lookupKey d1 k = lookupKey d2 k) →
      export_to_latex_lines d1 = export_to_latex_lines d2)
    ∧ (∀ d : List (String × Json),
      (∀ k ∈ sectionKeys, lookupKey d k = none) →
      export_to_latex_lines d = some (latexPreamble ++ latexFooter)) := by
  constructor
  · intro d1 d2 h
    unfold export_to_latex_lines
    rw [list_mapM_congr sectionOrder _ _ (fun p hp => sectionBlock_congr d1 d2 h p hp)]
  · intro d h
    have hb : ∀ p ∈ sectionOrder, sectionBlock d p = some [] := by
      intro p hp
      unfold sectionBlock
      rw [h p.1 (List.mem_map_of_mem Prod.fst hp)]
    obtain ⟨bs, h1, h2⟩ := mapM_blocks_empty sectionOrder _ hb
    unfold export_to_latex_lines
    rw [h1]
    simp [h2]

/-- Witness for C8: a document whose extra top-level key changes nothing, and
a document with no listed key at all, which renders to just the preamble and
footer. -/
theorem export_to_latex_fixed_sections_witness :
    export_to_latex_lines [("version", Json.num 2),
        ("basicInfo", Json.obj [("name", Json.str "X")]), ("junkKey", Json.arr [])]
      = export_to_latex_lines [("basicInfo", Json.obj [("name", Json.str "X")])]
    ∧ export_to_latex_lines [("junkKey", Json.num 7)]
      = some (latexPreamble ++ latexFooter) :=
  ⟨export_to_latex_fixed_sections.1 _ _ (by intro k hk; fin_cases hk <;> rfl),
   export_to_latex_fixed_sections.2 _ (by intro k hk; fin_cases hk <;> rfl)⟩
